import Mathlib

/-!
Verification development for the dispatch-http repository.

The repository has two logic-bearing components:

* a document parser (`frontend/src/lib/parser.ts`) that segments a plain-text
  `.http` document into request blocks, and
* a single-shot request executor (`app.go`, `Execute`) that performs one HTTP
  call and returns a normalized result.

Both are shallowly embedded below.  Lines and strings are modelled as
`List Char` (a JS string is a sequence of code units; none of the verified
properties depend on surrogate pairs).  JS `trim` is modelled over the ASCII
whitespace characters; mutable JS objects used as string-keyed records are
modelled as insertion-ordered association lists with overwrite-in-place
semantics (`recordSet`).  The Go executor's collaborators (`http.NewRequest`
validation, the `http.Client` transport, the wall clock) are modelled as an
explicit environment `ExecEnv`; the executor itself is the pure function
`Execute` over that environment.
-/

namespace Dispatch

/-- The whitespace characters recognized by the model of JS `trim` /
`trimEnd` (space, tab, newline, carriage return, vertical tab, form feed). -/
def isWs (c : Char) : Bool :=
  c = ' ' || c = '\t' || c = '\n' || c = '\r' || c = Char.ofNat 11 || c = Char.ofNat 12

/-- JS `String.prototype.trimEnd`: drop trailing whitespace. -/
def trimEndL (l : List Char) : List Char :=
  (l.reverse.dropWhile isWs).reverse

/-- JS `String.prototype.trim`: drop leading and trailing whitespace. -/
def trim (l : List Char) : List Char :=
  trimEndL (l.dropWhile isWs)

/-- `beginsWith p s` models JS `s.startsWith(p)`. -/
def beginsWith : List Char → List Char → Bool
  | [], _ => true
  | _ :: _, [] => false
  | p :: ps, c :: cs => p = c && beginsWith ps cs

/-- JS `String.prototype.indexOf` for a single character: index of the first
occurrence, `-1` if absent. -/
def indexOfChar : List Char → Char → Int
  | [], _ => -1
  | c :: cs, t =>
    if c = t then 0
    else
      let r := indexOfChar cs t
      if r < 0 then -1 else r + 1

/-- JS `content.split('\n')`.  Never returns the empty list. -/
def splitLines : List Char → List (List Char)
  | [] => [[]]
  | c :: cs =>
    if c = '\n' then [] :: splitLines cs
    else
      match splitLines cs with
      | l :: ls => (c :: l) :: ls
      | [] => [[c]]

/-- `lines.join('\n')` over already-split lines. -/
def joinLines : List (List Char) → List Char
  | [] => []
  | [l] => l
  | l :: ls => l ++ '\n' :: joinLines ls

/-- Assignment `obj[k] = v` on a JS object used as a string-keyed record:
an existing key keeps its position and gets the new value, a new key is
appended.  Polymorphic so the same model serves the parser's header record
and the executor's Go header maps. -/
def recordSet {α β : Type} [DecidableEq α] (m : List (α × β)) (k : α) (v : β) :
    List (α × β) :=
  if m.any (fun p => p.1 = k) then
    m.map (fun p => if p.1 = k then (k, v) else p)
  else
    m ++ [(k, v)]

/-- Lookup `obj[k]` on the record model. -/
def recordGet {α β : Type} [DecidableEq α] : List (α × β) → α → Option β
  | [], _ => none
  | (k', v) :: r, k => if k' = k then some v else recordGet r k

/-! ## The document parser (`frontend/src/lib/parser.ts`) -/

/-- `RequestBlock` from `parser.ts`. -/
structure RequestBlock where
  method : List Char
  url : List Char
  headers : List (List Char × List Char)
  body : List Char
  startLine : Nat
  endLine : Nat
  methodLine : Nat
deriving Repr, DecidableEq

instance : Inhabited RequestBlock := ⟨⟨[], [], [], [], 0, 0, 0⟩⟩

/-- `HTTP_METHODS` from `parser.ts`. -/
def HTTP_METHODS : List (List Char) :=
  ["GET".data, "POST".data, "PUT".data, "PATCH".data, "DELETE".data,
   "HEAD".data, "OPTIONS".data]

/-- JS `\w` (word character): ASCII letter, digit or underscore. -/
def isWordChar (c : Char) : Bool :=
  c.isAlpha || c.isDigit || c = '_'

/-- Tail of the test for the regex alternative `\w+\.\w`: after one leading
word character, consume word characters until the first non-word character,
which must be a literal `.` followed by a word character. -/
def wdwTail : List Char → Bool
  | [] => false
  | c :: cs =>
    if isWordChar c then wdwTail cs
    else
      c = '.' && (match cs with
        | d :: _ => isWordChar d
        | [] => false)

/-- Test for the regex `^\w+\.\w` (e.g. `host.tld`). -/
def wordDotWord : List Char → Bool
  | [] => false
  | c :: cs => isWordChar c && wdwTail cs

/-- Left brace character (written via its code point for tooling reasons). -/
def lbrace : Char := Char.ofNat 123

/-- The URL-shape test `/^(https?:\/\/|\/|{{|\w+\.\w)/` from
`looksLikeMethodLine`. -/
def urlShape (url : List Char) : Bool :=
  beginsWith "http://".data url || beginsWith "https://".data url ||
  beginsWith ['/'] url || beginsWith [lbrace, lbrace] url || wordDotWord url

/-- `looksLikeMethodLine` from `parser.ts` (the argument is the trimmed
line). -/
def looksLikeMethodLine (line : List Char) : Bool :=
  (HTTP_METHODS.any (fun m =>
    beginsWith (m ++ [' ']) line && urlShape (trim (line.drop (m.length + 1))))) ||
  beginsWith "http://".data line || beginsWith "https://".data line

/-- Helper for `parseMethodUrl`: the loop over `HTTP_METHODS`. -/
def methodSplit : List (List Char) → List Char → Option (List Char × List Char)
  | [], _ => none
  | m :: ms, line =>
    if beginsWith (m ++ [' ']) line then some (m, trim (line.drop (m.length + 1)))
    else methodSplit ms line

/-- `parseMethodUrl` from `parser.ts`.  The JS function returns
`{method: '', url: ''}` on failure and `buildBlock` then returns `null`;
the empty-method outcome is modelled as `none`. -/
def parseMethodUrl (line : List Char) : Option (List Char × List Char) :=
  match methodSplit HTTP_METHODS line with
  | some r => some r
  | none =>
    if beginsWith "http://".data line || beginsWith "https://".data line then
      some ("GET".data, line)
    else none

/-- The header-scanning loop of `buildBlock` (`for i = mLine+1; i <= end`),
run over the explicit list of indices it visits.  Returns the headers
captured before the first blank line and, when a blank line was found, the
JS `bodyStart` (= blank index + 1). -/
def headerScanGo (lines : List (List Char)) :
    List Nat → List (List Char × List Char) →
    List (List Char × List Char) × Option Nat
  | [], acc => (acc, none)
  | i :: rest, acc =>
    let ln := lines.getD i []
    if trim ln = [] then (acc, some (i + 1))
    else
      let ci := indexOfChar ln ':'
      headerScanGo lines rest
        (if 0 < ci then
          recordSet acc (trim (ln.take ci.toNat)) (trim (ln.drop (ci.toNat + 1)))
         else acc)

/-- `buildBlock` from `parser.ts`.  The JS guard `bodyStart > 0` is always
true when `bodyStart` was assigned (it is a blank-line index `≥ 1` plus one),
so the `Option` returned by the scan models it exactly. -/
def buildBlock (lines : List (List Char)) (start endL mLine : Nat) :
    Option RequestBlock :=
  match parseMethodUrl (trim (lines.getD mLine [])) with
  | none => none
  | some (method, url) =>
    let scanned := headerScanGo lines (List.range' (mLine + 1) (endL - mLine)) []
    let body :=
      match scanned.2 with
      | some bs =>
        if bs ≤ endL then trimEndL (joinLines ((lines.drop bs).take (endL + 1 - bs)))
        else []
      | none => []
    some ⟨method, url, scanned.1, body, start, endL, mLine⟩

/-- The `while (endLine > currentMethodLine && lines[endLine].trim() === '')
endLine--` loop of `flush`. -/
def trimBlankEnd (lines : List (List Char)) (m : Nat) : Nat → Nat
  | 0 => 0
  | e + 1 =>
    if m < e + 1 ∧ trim (lines.getD (e + 1) []) = [] then trimBlankEnd lines m e
    else e + 1

/-- Parser loop state: `blocks`, `blockStart` and `currentMethodLine`
(JS `-1` modelled as `none`). -/
structure PState where
  blocks : List RequestBlock
  blockStart : Nat
  methodLine : Option Nat
deriving Repr, DecidableEq

/-- `flush(endLine)` from `parseHttpFile`. -/
def flushSt (lines : List (List Char)) (st : PState) (endL : Nat) : PState :=
  match st.methodLine with
  | none => st
  | some m =>
    let e := trimBlankEnd lines m endL
    match buildBlock lines st.blockStart e m with
    | some b => ⟨st.blocks ++ [b], st.blockStart, none⟩
    | none => ⟨st.blocks, st.blockStart, none⟩

/-- One iteration of the `for` loop of `parseHttpFile`, at index `i` with
line `ln`.  `flush(i - 1)` uses truncated subtraction: the JS call can pass
`-1` only at `i = 0`, where `currentMethodLine` is still `-1` and `flush`
returns without touching its argument, so the two agree.  The second `if`
of the method-line branch is the (unreachable) `blockStart > i` repair kept
from the source. -/
def parseLineStep (lines : List (List Char)) (i : Nat) (ln : List Char)
    (st : PState) : PState :=
  let trimmed := trim ln
  if beginsWith ['#', '#', '#'] trimmed then
    let f := flushSt lines st (i - 1)
    ⟨f.blocks, i, f.methodLine⟩
  else if looksLikeMethodLine trimmed then
    let st1 :=
      if st.methodLine.isSome then
        let f := flushSt lines st (i - 1)
        ⟨f.blocks, i, f.methodLine⟩
      else st
    let st2 :=
      if st1.methodLine = none ∧ i < st1.blockStart then
        ⟨st1.blocks, i, st1.methodLine⟩
      else st1
    ⟨st2.blocks, st2.blockStart, some i⟩
  else st

/-- Pair each line with its zero-based index, starting at `i`. -/
def withIdx {α : Type} : Nat → List α → List (Nat × α)
  | _, [] => []
  | i, a :: rest => (i, a) :: withIdx (i + 1) rest

/-- The `for` loop of `parseHttpFile`. -/
def parseLinesGo (lines : List (List Char)) :
    List (Nat × List Char) → PState → PState
  | [], st => st
  | p :: rest, st => parseLinesGo lines rest (parseLineStep lines p.1 p.2 st)

/-- `parseHttpFile` from `parser.ts`. -/
def parseHttpFile (content : List Char) : List RequestBlock :=
  let lines := splitLines content
  let final := parseLinesGo lines (withIdx 0 lines) ⟨[], 0, none⟩
  (flushSt lines final (lines.length - 1)).blocks

/-- `findRequestAtLine` from `parser.ts`. -/
def findRequestAtLine (blocks : List RequestBlock) (line : Nat) :
    Option RequestBlock :=
  blocks.find? (fun b => decide (b.startLine ≤ line) && decide (line ≤ b.endLine))

/-! ## The request executor (`app.go`, `Execute`) -/

/-- The outgoing `*http.Request` as `Execute` builds it: method, url, the
optional payload (`nil` reader vs `strings.NewReader(body)`) and the headers
the function sets explicitly. -/
structure Request where
  method : String
  url : String
  reqBody : Option String
  reqHeader : List (String × String)
deriving Repr, DecidableEq

/-- A response delivered by the transport: status code, the header map
(one entry per canonical name, `Header.Get` takes the first value of each),
and the bytes that `io.ReadAll(resp.Body)` returns (the code discards the
read error, keeping whatever was read). -/
structure HttpResp where
  statusCode : Nat
  header : List (String × List String)
  bodyRead : String
deriving Repr

/-- The executor's collaborators: `newReq` is `http.NewRequest`'s validation
of method and URL (`some e` = construction fails with message `e`, it does
not depend on the payload), `transport` is `a.client.Do`, and the two
`elapsed` fields are the values `time.Since(start).Milliseconds()` takes at
the transport-failure return and at the final return (milliseconds, hence
never negative: `Nat`). -/
structure ExecEnv where
  newReq : String → String → Option String
  transport : Request → Except String HttpResp
  elapsedFail : Nat
  elapsedDone : Nat

/-- The Go `Response` struct of `app.go`.  `error` has `omitempty`: the Go
zero value `""` is the absent error. -/
structure Response where
  status : Nat
  headers : List (String × String)
  body : String
  duration : Nat
  error : String
deriving Repr, DecidableEq

/-- The request `Execute` hands to the transport: a nil payload exactly when
`body` is empty, and `Content-Type: application/json` set exactly when
`body` is non-empty. -/
def buildExecRequest (method url body : String) : Request :=
  let requestBody : Option String := if body ≠ "" then some body else none
  let req : Request := ⟨method, url, requestBody, []⟩
  if body ≠ "" then
    ⟨req.method, req.url, req.reqBody, recordSet req.reqHeader "Content-Type" "application/json"⟩
  else req

/-- The header-flattening loop `for key := range resp.Header
{ headers[key] = resp.Header.Get(key) }`: each name keeps a single value,
the first of its slice (`""` for an empty slice, as in `Header.Get`). -/
def flattenHeader (h : List (String × List String)) : List (String × String) :=
  h.map (fun kv => (kv.1, kv.2.headD ""))

/-- `Execute` from `app.go`. -/
def Execute (env : ExecEnv) (method url body : String) : Response :=
  match env.newReq method url with
  | some e => ⟨0, [], "", 0, e⟩
  | none =>
    let req := buildExecRequest method url body
    match env.transport req with
    | .error e => ⟨0, [], "", env.elapsedFail, e⟩
    | .ok resp => ⟨resp.statusCode, flattenHeader resp.header, resp.bodyRead,
                   env.elapsedDone, ""⟩

/-- Number of times `Execute`'s control flow reaches the single
`a.client.Do(req)` call site: zero when request construction fails, one
otherwise.  The source contains no loop or retry around the call. -/
def transportCalls (env : ExecEnv) (method url : String) : Nat :=
  match env.newReq method url with
  | some _ => 0
  | none => 1

/-- Concrete environment whose request construction always fails. -/
def envConstructFail : ExecEnv :=
  ⟨fun _ _ => some "bad method", fun _ => Except.error "unused", 7, 9⟩

/-- Concrete environment whose transport always refuses the connection. -/
def envTransportFail : ExecEnv :=
  ⟨fun _ _ => none, fun _ => Except.error "connection refused", 7, 9⟩

/-- Concrete environment whose transport returns a 503 response. -/
def envOk : ExecEnv :=
  ⟨fun _ _ => none,
   fun _ => Except.ok ⟨503, [("X-A", ["a", "b"]), ("X-B", [])], "oops"⟩, 3, 12⟩

/-- A trimmed line is a comment in the sense of the spec: it starts with `#`
but not `###`, or starts with `//`. -/
def commentShape (t : List Char) : Prop :=
  (beginsWith ['#'] t = true ∧ beginsWith ['#', '#', '#'] t = false) ∨
  beginsWith ['/', '/'] t = true

instance (t : List Char) : Decidable (commentShape t) := by
  unfold commentShape
  infer_instance

/-- Well-formedness of a block's line span. -/
def blockWf (b : RequestBlock) : Prop :=
  b.startLine ≤ b.methodLine ∧ b.methodLine ≤ b.endLine

/-- The invariant of the `parseHttpFile` loop, about to process line `i`:
the open region starts at or before `i`, any recorded method line lies in
`[blockStart, i)`, and the accumulated blocks are well-formed, have
end-trimmed bodies, end before the open region, and are ordered. -/
structure LoopInv (lines : List (List Char)) (i : Nat) (st : PState) : Prop where
  bs_le : st.blockStart ≤ i
  ml_lt : ∀ m, st.methodLine = some m → st.blockStart ≤ m ∧ m < i
  blocks_wf : ∀ b ∈ st.blocks, blockWf b
  blocks_body : ∀ b ∈ st.blocks, b.body = [] ∨ ∃ s, b.body = trimEndL s
  blocks_lt : ∀ b ∈ st.blocks, b.endLine < st.blockStart
  blocks_sorted : st.blocks.Pairwise fun a b => a.endLine < b.startLine

/-- A two-block sample document with `###` separators. -/
def sepDoc : List Char := ("### First\nGET http://a.b\n### Second\nGET http://c.d").data

/-- A sample document whose body has an internal and two trailing blank lines. -/
def blankDoc : List Char := ("GET http://x.y\n\na\n\nb\n\n").data

/-! ## Theorems -/

/-! ### Utility lemmas about the string model -/

theorem dropWhile_append_last {p : Char → Bool} {c : Char} (h : p c = false)
    (xs : List Char) : List.dropWhile p (xs ++ [c]) = List.dropWhile p xs ++ [c] := by
  induction xs with
  | nil => simp [List.dropWhile, h]
  | cons x xs ih =>
    by_cases hx : p x
    · simpa [List.dropWhile, hx] using ih
    · simp [List.dropWhile, hx]

theorem trimEndL_cons_of_not_ws {c : Char} (h : isWs c = false) (r : List Char) :
    trimEndL (c :: r) = c :: trimEndL r := by
  unfold trimEndL
  rw [List.reverse_cons, dropWhile_append_last h, List.reverse_append]
  simp

theorem trim_cons_of_not_ws {c : Char} (h : isWs c = false) (r : List Char) :
    trim (c :: r) = c :: trimEndL r := by
  unfold trim
  rw [List.dropWhile_cons]
  simp only [h, Bool.false_eq_true, if_false]
  exact trimEndL_cons_of_not_ws h r

theorem trim_cons_of_ws {c : Char} (h : isWs c = true) (r : List Char) :
    trim (c :: r) = trim r := by
  unfold trim
  rw [List.dropWhile_cons]
  simp [h]

theorem trim_ne_nil_of_head_not_ws {c : Char} (h : isWs c = false) (r : List Char) :
    trim (c :: r) ≠ [] := by
  rw [trim_cons_of_not_ws h]
  simp

/-- The first character of a `beginsWith` match. -/
theorem beginsWith_cons_iff (p : Char) (ps s : List Char) :
    beginsWith (p :: ps) s = true ↔ ∃ r, s = p :: r ∧ beginsWith ps r = true := by
  cases s with
  | nil => simp [beginsWith]
  | cons c cs =>
    constructor
    · intro h
      rcases Bool.and_eq_true .. |>.mp h with ⟨h1, h2⟩
      exact ⟨cs, by rw [of_decide_eq_true h1], h2⟩
    · rintro ⟨r, hr, h2⟩
      cases hr
      simp [beginsWith, h2]

theorem beginsWith_cons_false {p c : Char} (h : p ≠ c) (ps cs : List Char) :
    beginsWith (p :: ps) (c :: cs) = false := by
  simp [beginsWith, h]

/-! ### Line-classification lemmas for the parser -/

/-- A trimmed line whose first character is none of `G`, `P`, `D`, `H`, `O`
(the verb initials) and not `h` (the bare-URL initial) is never a method
line. -/
theorem looksLikeMethodLine_head_false {c : Char} (r : List Char)
    (hG : c ≠ 'G') (hP : c ≠ 'P') (hD : c ≠ 'D') (hH : c ≠ 'H')
    (hO : c ≠ 'O') (hh : c ≠ 'h') :
    looksLikeMethodLine (c :: r) = false := by
  have hbw : ∀ p : Char, ∀ ps : List Char, p ≠ c →
      beginsWith (p :: ps) (c :: r) = false := fun p ps hp =>
    beginsWith_cons_false hp ps r
  unfold looksLikeMethodLine HTTP_METHODS
  simp only [List.any_cons, List.any_nil]
  rw [show ("GET".data ++ [' ']) = 'G' :: "ET ".data from rfl,
      show ("POST".data ++ [' ']) = 'P' :: "OST ".data from rfl,
      show ("PUT".data ++ [' ']) = 'P' :: "UT ".data from rfl,
      show ("PATCH".data ++ [' ']) = 'P' :: "ATCH ".data from rfl,
      show ("DELETE".data ++ [' ']) = 'D' :: "ELETE ".data from rfl,
      show ("HEAD".data ++ [' ']) = 'H' :: "EAD ".data from rfl,
      show ("OPTIONS".data ++ [' ']) = 'O' :: "PTIONS ".data from rfl]
  rw [hbw 'G' _ (Ne.symm hG), hbw 'P' _ (Ne.symm hP), hbw 'P' _ (Ne.symm hP),
      hbw 'P' _ (Ne.symm hP), hbw 'D' _ (Ne.symm hD), hbw 'H' _ (Ne.symm hH),
      hbw 'O' _ (Ne.symm hO), hbw 'h' _ (Ne.symm hh), hbw 'h' _ (Ne.symm hh)]
  simp

theorem commentShape_head {t : List Char} (h : commentShape t) :
    ∃ c r, t = c :: r ∧ (c = '#' ∨ c = '/') := by
  rcases h with ⟨h1, _⟩ | h2
  · rcases (beginsWith_cons_iff _ _ _).mp h1 with ⟨r, hr, _⟩
    exact ⟨'#', r, hr, Or.inl rfl⟩
  · rcases (beginsWith_cons_iff _ _ _).mp h2 with ⟨r, hr, _⟩
    exact ⟨'/', r, hr, Or.inr rfl⟩

theorem looksLikeMethodLine_comment {t : List Char} (h : commentShape t) :
    looksLikeMethodLine t = false := by
  rcases commentShape_head h with ⟨c, r, rfl, hc | hc⟩ <;>
    subst hc <;>
    exact looksLikeMethodLine_head_false r (by decide) (by decide) (by decide)
      (by decide) (by decide) (by decide)

theorem comment_not_separator {t : List Char} (h : commentShape t) :
    beginsWith ['#', '#', '#'] t = false := by
  rcases h with ⟨_, h2⟩ | h2
  · exact h2
  · rcases (beginsWith_cons_iff _ _ _).mp h2 with ⟨r, hr, _⟩
    cases hr
    exact beginsWith_cons_false (by decide) _ _

/-- Processing a line that is neither a separator nor a method line leaves
the parser state unchanged. -/
theorem parseLineStep_plain (lines : List (List Char)) (i : Nat) (ln : List Char)
    (st : PState) (hsep : beginsWith ['#', '#', '#'] (trim ln) = false)
    (hm : looksLikeMethodLine (trim ln) = false) :
    parseLineStep lines i ln st = st := by
  unfold parseLineStep
  simp only [hsep, hm, Bool.false_eq_true, if_false]

/-- Processing a method line with no block currently open records the method
line and touches nothing else. -/
theorem parseLineStep_method_none (lines : List (List Char)) (i : Nat)
    (ln : List Char) (st : PState)
    (hsep : beginsWith ['#', '#', '#'] (trim ln) = false)
    (hm : looksLikeMethodLine (trim ln) = true)
    (hml : st.methodLine = none)
    (hbs : ¬ i < st.blockStart) :
    parseLineStep lines i ln st = ⟨st.blocks, st.blockStart, some i⟩ := by
  unfold parseLineStep
  simp [hsep, hm, hml, hbs]

/-- A `###` separator line flushes and restarts the open region at `i`. -/
theorem parseLineStep_sep (lines : List (List Char)) (i : Nat) (ln : List Char)
    (st : PState) (hsep : beginsWith ['#', '#', '#'] (trim ln) = true) :
    parseLineStep lines i ln st =
      ⟨(flushSt lines st (i - 1)).blocks, i, (flushSt lines st (i - 1)).methodLine⟩ := by
  unfold parseLineStep
  simp only [hsep, if_true]

/-- Flushing a state with an open method line closes it. -/
theorem flushSt_methodLine_some {lines : List (List Char)} {st : PState}
    {e m : Nat} (hml : st.methodLine = some m) :
    (flushSt lines st e).methodLine = none := by
  unfold flushSt
  rw [hml]
  dsimp only
  split <;> rfl

/-- Processing a method line while a block is open flushes the open block at
`i - 1` and opens a fresh one whose method line is `i`. -/
theorem parseLineStep_method_some (lines : List (List Char)) (i : Nat)
    (ln : List Char) (st : PState) (m : Nat)
    (hsep : beginsWith ['#', '#', '#'] (trim ln) = false)
    (hm : looksLikeMethodLine (trim ln) = true)
    (hml : st.methodLine = some m) :
    parseLineStep lines i ln st = ⟨(flushSt lines st (i - 1)).blocks, i, some i⟩ := by
  unfold parseLineStep
  simp only [hsep, Bool.false_eq_true, if_false, hm, if_true, hml,
    Option.isSome_some]
  rw [if_neg]
  intro hc
  exact absurd hc.2 (by omega)

theorem trimBlankEnd_le (lines : List (List Char)) (m : Nat) :
    ∀ e, trimBlankEnd lines m e ≤ e := by
  intro e
  induction e with
  | zero => simp [trimBlankEnd]
  | succ e ih =>
    rw [trimBlankEnd]
    split
    · omega
    · exact le_refl _

theorem trimBlankEnd_ge (lines : List (List Char)) (m : Nat) :
    ∀ e, m ≤ e → m ≤ trimBlankEnd lines m e := by
  intro e
  induction e with
  | zero => intro h; simpa [trimBlankEnd] using h
  | succ e ih =>
    intro h
    rw [trimBlankEnd]
    split
    · next hc => exact ih (by omega)
    · exact h

theorem buildBlock_fields {lines : List (List Char)} {start endL mLine : Nat}
    {b : RequestBlock} (h : buildBlock lines start endL mLine = some b) :
    b.startLine = start ∧ b.endLine = endL ∧ b.methodLine = mLine ∧
    (b.body = [] ∨ ∃ s, b.body = trimEndL s) := by
  unfold buildBlock at h
  rcases hpm : parseMethodUrl (trim (lines.getD mLine [])) with _ | ⟨method, url⟩
  · rw [hpm] at h
    exact absurd h (by simp)
  · rw [hpm] at h
    simp only [Option.some_inj] at h
    subst h
    refine ⟨rfl, rfl, rfl, ?_⟩
    dsimp only
    split
    · split
      · exact Or.inr ⟨_, rfl⟩
      · exact Or.inl rfl
    · exact Or.inl rfl

/-- Flushing at `i - 1` preserves all block invariants and closes the open
method line; the produced blocks all end before `i`. -/
theorem flushSt_inv {lines : List (List Char)} {i : Nat} {st : PState}
    (h : LoopInv lines i st) :
    (flushSt lines st (i - 1)).blockStart = st.blockStart ∧
    (flushSt lines st (i - 1)).methodLine = none ∧
    (∀ b ∈ (flushSt lines st (i - 1)).blocks,
      blockWf b ∧ (b.body = [] ∨ ∃ s, b.body = trimEndL s) ∧ b.endLine < i) ∧
    (flushSt lines st (i - 1)).blocks.Pairwise (fun a b => a.endLine < b.startLine) := by
  unfold flushSt
  rcases hm : st.methodLine with _ | m
  · dsimp only
    refine ⟨rfl, hm, ?_, h.blocks_sorted⟩
    intro b hb
    exact ⟨h.blocks_wf b hb, h.blocks_body b hb,
      lt_of_lt_of_le (h.blocks_lt b hb) h.bs_le⟩
  · have hmi := h.ml_lt m hm
    have hme : m ≤ i - 1 := by omega
    have hgel : m ≤ trimBlankEnd lines m (i - 1) := trimBlankEnd_ge lines m _ hme
    have hlel : trimBlankEnd lines m (i - 1) ≤ i - 1 := trimBlankEnd_le lines m _
    dsimp only
    rcases hb : buildBlock lines st.blockStart (trimBlankEnd lines m (i - 1)) m with _ | b
    · simp only [hb]
      refine ⟨trivial, trivial, ?_, h.blocks_sorted⟩
      intro b hbm
      exact ⟨h.blocks_wf b hbm, h.blocks_body b hbm,
        lt_of_lt_of_le (h.blocks_lt b hbm) h.bs_le⟩
    · simp only [hb]
      rcases buildBlock_fields hb with ⟨hs, he, hml, hbody⟩
      refine ⟨trivial, trivial, ?_, ?_⟩
      · intro b' hb'
        rcases List.mem_append.mp hb' with hold | hnew
        · exact ⟨h.blocks_wf b' hold, h.blocks_body b' hold,
            lt_of_lt_of_le (h.blocks_lt b' hold) h.bs_le⟩
        · rcases List.mem_singleton.mp hnew with rfl
          refine ⟨⟨?_, ?_⟩, hbody, ?_⟩
          · rw [hs, hml]; exact hmi.1
          · rw [hml, he]; exact hgel
          · rw [he]; omega
      · rw [List.pairwise_append]
        refine ⟨h.blocks_sorted, List.pairwise_singleton _ _, ?_⟩
        intro a ha b' hb'
        rcases List.mem_singleton.mp hb' with rfl
        rw [hs]
        exact h.blocks_lt a ha

/-- Packaging lemma: build the invariant for an explicitly given state. -/
theorem LoopInv.make (lines : List (List Char)) (i : Nat)
    (bks : List RequestBlock) (bs : Nat) (ml : Option Nat)
    (h1 : bs ≤ i) (h2 : ∀ m, ml = some m → bs ≤ m ∧ m < i)
    (h3 : ∀ b ∈ bks, blockWf b)
    (h4 : ∀ b ∈ bks, b.body = [] ∨ ∃ s, b.body = trimEndL s)
    (h5 : ∀ b ∈ bks, b.endLine < bs)
    (h6 : bks.Pairwise fun a b => a.endLine < b.startLine) :
    LoopInv lines i ⟨bks, bs, ml⟩ :=
  ⟨h1, h2, h3, h4, h5, h6⟩

/-- One loop iteration preserves the invariant. -/
theorem parseLineStep_inv {lines : List (List Char)} {i : Nat} {st : PState}
    (ln : List Char) (h : LoopInv lines i st) :
    LoopInv lines (i + 1) (parseLineStep lines i ln st) := by
  rcases flushSt_inv h with ⟨hfs, hfm, hfb, hfp⟩
  by_cases hsep : beginsWith ['#', '#', '#'] (trim ln) = true
  · rw [parseLineStep_sep lines i ln st hsep]
    refine LoopInv.make lines (i + 1) _ i _ (by omega) ?_
      (fun b hb => (hfb b hb).1) (fun b hb => (hfb b hb).2.1)
      (fun b hb => (hfb b hb).2.2) hfp
    intro m hm
    rw [hfm] at hm
    cases hm
  · have hsep' : beginsWith ['#', '#', '#'] (trim ln) = false := by
      revert hsep
      cases beginsWith ['#', '#', '#'] (trim ln) <;> simp
    by_cases hm : looksLikeMethodLine (trim ln) = true
    · rcases hml : st.methodLine with _ | m
      · rw [parseLineStep_method_none lines i ln st hsep' hm hml
          (by have := h.bs_le; omega)]
        refine LoopInv.make lines (i + 1) _ _ _ (by have := h.bs_le; omega) ?_
          h.blocks_wf h.blocks_body h.blocks_lt h.blocks_sorted
        intro m' hm'
        simp only [Option.some_inj] at hm'
        subst hm'
        exact ⟨h.bs_le, by omega⟩
      · rw [parseLineStep_method_some lines i ln st m hsep' hm hml]
        refine LoopInv.make lines (i + 1) _ i _ (by omega) ?_
          (fun b hb => (hfb b hb).1) (fun b hb => (hfb b hb).2.1)
          (fun b hb => (hfb b hb).2.2) hfp
        intro m' hm'
        simp only [Option.some_inj] at hm'
        subst hm'
        exact ⟨le_refl i, by omega⟩
    · have hm' : looksLikeMethodLine (trim ln) = false := by
        revert hm
        cases looksLikeMethodLine (trim ln) <;> simp
      rw [parseLineStep_plain lines i ln st hsep' hm']
      exact
        { bs_le := by have := h.bs_le; omega
          ml_lt := fun m' hmx => by
            rcases h.ml_lt m' hmx with ⟨h1, h2⟩
            exact ⟨h1, by omega⟩
          blocks_wf := h.blocks_wf
          blocks_body := h.blocks_body
          blocks_lt := h.blocks_lt
          blocks_sorted := h.blocks_sorted }

theorem parseLinesGo_inv (lines : List (List Char)) :
    ∀ (rest : List (List Char)) (i : Nat) (st : PState), LoopInv lines i st →
      LoopInv lines (i + rest.length) (parseLinesGo lines (withIdx i rest) st) := by
  intro rest
  induction rest with
  | nil => intro i st h; simpa [withIdx, parseLinesGo] using h
  | cons a rest ih =>
    intro i st h
    rw [withIdx, parseLinesGo]
    have hstep := parseLineStep_inv a h
    have := ih (i + 1) _ hstep
    have harith : i + (a :: rest).length = (i + 1) + rest.length := by
      simp
      omega
    rw [harith]
    exact this

theorem loopInv_init (lines : List (List Char)) :
    LoopInv lines 0 ⟨[], 0, none⟩ :=
  { bs_le := le_refl 0
    ml_lt := fun m hm => by cases hm
    blocks_wf := fun b hb => absurd hb (List.not_mem_nil b)
    blocks_body := fun b hb => absurd hb (List.not_mem_nil b)
    blocks_lt := fun b hb => absurd hb (List.not_mem_nil b)
    blocks_sorted := List.Pairwise.nil }

/-- Master structural property of `parseHttpFile`: every returned block is
well-formed and has an end-trimmed body, and the returned sequence is
strictly ordered (each block ends before the next begins). -/
theorem parseHttpFile_master (content : List Char) :
    (∀ b ∈ parseHttpFile content,
      blockWf b ∧ (b.body = [] ∨ ∃ s, b.body = trimEndL s)) ∧
    (parseHttpFile content).Pairwise (fun a b => a.endLine < b.startLine) := by
  have h0 := loopInv_init (splitLines content)
  have h1 := parseLinesGo_inv (splitLines content) (splitLines content) 0 _ h0
  rw [Nat.zero_add] at h1
  rcases flushSt_inv h1 with ⟨_, _, hb, hp⟩
  unfold parseHttpFile
  exact ⟨fun b hbm => ⟨(hb b hbm).1, (hb b hbm).2.1⟩, hp⟩

theorem dropWhile_head_not (p : Char → Bool) :
    ∀ l : List Char, List.dropWhile p l = [] ∨
      ∃ c r, List.dropWhile p l = c :: r ∧ p c = false := by
  intro l
  induction l with
  | nil => exact Or.inl rfl
  | cons c cs ih =>
    by_cases hc : p c = true
    · rw [List.dropWhile_cons, if_pos hc]
      exact ih
    · rw [List.dropWhile_cons, if_neg hc]
      exact Or.inr ⟨c, cs, rfl, by revert hc; cases p c <;> simp⟩

theorem dropWhile_self_idem (p : Char → Bool) (l : List Char) :
    List.dropWhile p (List.dropWhile p l) = List.dropWhile p l := by
  rcases dropWhile_head_not p l with h | ⟨c, r, heq, hc⟩
  · rw [h]
    rfl
  · rw [heq, List.dropWhile_cons, if_neg (by simp [hc])]

theorem trimEndL_idem (s : List Char) : trimEndL (trimEndL s) = trimEndL s := by
  unfold trimEndL
  rw [List.reverse_reverse, dropWhile_self_idem]

theorem getLastD_append_one :
    ∀ (l : List Char) (c d : Char), (l ++ [c]).getLastD d = c := by
  intro l
  induction l with
  | nil => intro c d; rfl
  | cons a l ih =>
    intro c d
    rw [List.cons_append, List.getLastD_cons]
    exact ih c a

/-- An end-trimmed string is empty or ends in a non-whitespace character. -/
theorem trimEndL_last (s : List Char) :
    trimEndL s = [] ∨ isWs ((trimEndL s).getLastD ' ') = false := by
  unfold trimEndL
  rcases dropWhile_head_not isWs s.reverse with h | ⟨c, r, heq, hc⟩
  · rw [h]
    exact Or.inl rfl
  · rw [heq]
    right
    rw [List.reverse_cons, getLastD_append_one]
    exact hc

theorem findRequestAtLine_none_iff (blocks : List RequestBlock) (line : Nat) :
    findRequestAtLine blocks line = none ↔
      ∀ b ∈ blocks, ¬ (b.startLine ≤ line ∧ line ≤ b.endLine) := by
  unfold findRequestAtLine
  rw [List.find?_eq_none]
  constructor
  · intro h b hb hc
    exact h b hb (by simp [hc.1, hc.2])
  · intro h b hb
    have hx := h b hb
    simp only [Bool.and_eq_true, decide_eq_true_eq]
    rintro ⟨h1, h2⟩
    exact hx ⟨h1, h2⟩

theorem find?_first {α : Type} (p : α → Bool) :
    ∀ (l : List α) (a : α), l.find? p = some a →
      p a = true ∧ ∃ pre post, l = pre ++ a :: post ∧ ∀ x ∈ pre, p x = false := by
  intro l
  induction l with
  | nil => intro a h; simp [List.find?] at h
  | cons x xs ih =>
    intro a h
    by_cases hx : p x = true
    · rw [List.find?_cons_of_pos _ hx] at h
      rcases Option.some_inj.mp h with rfl
      exact ⟨hx, [], xs, rfl, fun y hy => absurd hy (List.not_mem_nil y)⟩
    · rw [List.find?_cons_of_neg _ hx] at h
      rcases ih a h with ⟨hpa, pre, post, heq, hpre⟩
      refine ⟨hpa, x :: pre, post, by rw [heq, List.cons_append], ?_⟩
      intro y hy
      rcases List.mem_cons.mp hy with rfl | hy'
      · revert hx
        cases p y <;> simp
      · exact hpre y hy'

theorem methodSplit_eq_none (line : List Char) :
    ∀ ms : List (List Char), (∀ m ∈ ms, beginsWith (m ++ [' ']) line = false) →
      methodSplit ms line = none := by
  intro ms
  induction ms with
  | nil => intro _; rfl
  | cons m ms ih =>
    intro h
    have hm := h m (List.mem_cons_self m ms)
    simp [methodSplit, hm]
    exact ih fun m' hm' => h m' (List.mem_cons_of_mem m hm')

/-- A `bodyStart` produced by the header scan always comes from a blank line
among the scanned indices. -/
theorem headerScanGo_bodyStart (lines : List (List Char)) :
    ∀ (ps : List Nat) acc bs, (headerScanGo lines ps acc).2 = some bs →
      ∃ j ∈ ps, bs = j + 1 ∧ trim (lines.getD j []) = [] := by
  intro ps
  induction ps with
  | nil => intro acc bs h; simp [headerScanGo] at h
  | cons i rest ih =>
    intro acc bs h
    rw [headerScanGo] at h
    by_cases hb : trim (lines.getD i []) = []
    · refine ⟨i, List.mem_cons_self i rest, ?_, hb⟩
      rw [if_pos hb] at h
      exact (Option.some_inj.mp h).symm
    · rw [if_neg hb] at h
      rcases ih _ _ h with ⟨j, hj, h1, h2⟩
      exact ⟨j, List.mem_cons_of_mem i hj, h1, h2⟩

/-- C1 counterexample: in the header region, a line whose trimmed content
starts with `//` and contains a colon IS captured as a header entry, so
comment lines are not inert for header capture as the claim states. -/
theorem comment_header_captured_cex :
    commentShape (trim ("// x: y").data) ∧
    parseHttpFile ("GET http://a.b\n// x: y").data =
      [⟨"GET".data, "http://a.b".data, [("// x".data, "y".data)], [], 0, 1, 0⟩] := by
  constructor
  · decide
  · decide

/-- C1 (amended): a line whose trimmed content starts with `#` (and not
`###`) or `//` is never treated as a method line, never matches the `###`
separator test, and leaves the parser loop state unchanged (so it neither
starts nor terminates a block); within a block's header region it is,
however, processed exactly like any other non-blank line: it is captured as
a header precisely when its first colon index is positive, and ignored
otherwise. -/
theorem comment_inert_amended (t : List Char) (h : commentShape t) :
    looksLikeMethodLine t = false ∧
    beginsWith ['#', '#', '#'] t = false ∧
    (∀ lines i st ln, trim ln = t → parseLineStep lines i ln st = st) ∧
    (∀ lines (i : Nat) rest acc, trim (lines.getD i []) = t →
      headerScanGo lines (i :: rest) acc =
        headerScanGo lines rest
          (if 0 < indexOfChar (lines.getD i []) ':' then
            recordSet acc
              (trim ((lines.getD i []).take (indexOfChar (lines.getD i []) ':').toNat))
              (trim ((lines.getD i []).drop ((indexOfChar (lines.getD i []) ':').toNat + 1)))
           else acc)) := by
  have hA := looksLikeMethodLine_comment h
  have hB := comment_not_separator h
  have hne : t ≠ [] := by
    rcases commentShape_head h with ⟨c, r, rfl, _⟩
    simp
  refine ⟨hA, hB, ?_, ?_⟩
  · intro lines i st ln hln
    unfold parseLineStep
    simp only [hln, hA, hB, Bool.false_eq_true, if_false]
  · intro lines i rest acc hln
    rw [headerScanGo, if_neg (by rw [hln]; exact hne)]

/-- Witness for C1's amended theorem at the comment line `# note: x`. -/
theorem comment_inert_amended_witness :
    looksLikeMethodLine ("# note: x").data = false ∧
    beginsWith ['#', '#', '#'] ("# note: x").data = false ∧
    parseLineStep [] 0 ("# note: x").data ⟨[], 0, none⟩ = ⟨[], 0, none⟩ := by
  have h := comment_inert_amended ("# note: x").data (by decide)
  exact ⟨h.1, h.2.1, h.2.2.1 [] 0 ⟨[], 0, none⟩ ("# note: x").data (by decide)⟩

/-- C3: a line that does not start with any verb followed by a space is a
method line exactly when it starts with `http://` or `https://` (the bare
URL shorthand), and such a line parses to method `GET` with the whole
trimmed line as the URL; concretely, `GET https://example.com/api` as a
one-line document yields exactly that block. -/
theorem bare_url_method_line (t : List Char)
    (hNoVerb : ∀ m ∈ HTTP_METHODS, beginsWith (m ++ [' ']) t = false) :
    looksLikeMethodLine t =
      (beginsWith "http://".data t || beginsWith "https://".data t) ∧
    ((beginsWith "http://".data t || beginsWith "https://".data t) = true →
      parseMethodUrl t = some ("GET".data, t)) ∧
    parseHttpFile "https://example.com/api".data =
      [⟨"GET".data, "https://example.com/api".data, [], [], 0, 0, 0⟩] := by
  have hany : HTTP_METHODS.any (fun m =>
      beginsWith (m ++ [' ']) t && urlShape (trim (t.drop (m.length + 1)))) = false := by
    rw [List.any_eq_false]
    intro m hm
    rw [hNoVerb m hm]
    simp
  refine ⟨?_, ?_, by decide⟩
  · unfold looksLikeMethodLine
    rw [hany]
    simp
  · intro hbare
    unfold parseMethodUrl
    rw [methodSplit_eq_none t HTTP_METHODS hNoVerb]
    simp [hbare]

/-- Witness for C3 at the bare-URL line `https://x`. -/
theorem bare_url_method_line_witness :
    looksLikeMethodLine ("https://x").data =
      (beginsWith "http://".data ("https://x").data ||
        beginsWith "https://".data ("https://x").data) ∧
    parseMethodUrl ("https://x").data = some ("GET".data, ("https://x").data) := by
  have h := bare_url_method_line ("https://x").data (by decide)
  exact ⟨h.1, h.2.1 (by decide)⟩

/-- C10: in a block's header region, a non-blank line with no colon or with
its first colon at index 0 is silently skipped: the scan continues with the
same headers (nothing captured, the region not terminated), and any body
start the scan later finds lies strictly beyond the skipped line, so the
line's content never reaches the block's body slice. -/
theorem header_region_ignored_line (lines : List (List Char)) (i : Nat)
    (rest : List Nat) (acc : List (List Char × List Char))
    (hnb : trim (lines.getD i []) ≠ [])
    (hcol : indexOfChar (lines.getD i []) ':' ≤ 0)
    (hrest : ∀ j ∈ rest, i < j) :
    headerScanGo lines (i :: rest) acc = headerScanGo lines rest acc ∧
    ∀ bs, (headerScanGo lines (i :: rest) acc).2 = some bs → i + 2 ≤ bs := by
  have hstep : headerScanGo lines (i :: rest) acc = headerScanGo lines rest acc := by
    rw [headerScanGo, if_neg hnb]
    simp only [if_neg (by omega : ¬ 0 < indexOfChar (lines.getD i []) ':')]
  refine ⟨hstep, ?_⟩
  intro bs h
  rw [hstep] at h
  rcases headerScanGo_bodyStart lines rest acc bs h with ⟨j, hj, hbs, _⟩
  have := hrest j hj
  omega

/-- Witness for C10 at a colon-free line between a method line and a header. -/
theorem header_region_ignored_line_witness :
    headerScanGo ["GET http://x.y".data, "weird line".data, "A: 1".data] [1, 2] [] =
      headerScanGo ["GET http://x.y".data, "weird line".data, "A: 1".data] [2] [] :=
  (header_region_ignored_line ["GET http://x.y".data, "weird line".data, "A: 1".data]
    1 [2] [] (by decide) (by decide) (by decide)).1

/-- C4: `Execute` attaches `Content-Type: application/json` to the outgoing
request exactly when `body` is non-empty, regardless of the body's content,
and sends no payload and no `Content-Type` header when `body` is empty. -/
theorem execute_content_type (method url body : String) :
    (body ≠ "" →
      (buildExecRequest method url body).reqBody = some body ∧
      recordGet (buildExecRequest method url body).reqHeader "Content-Type" =
        some "application/json") ∧
    (body = "" →
      (buildExecRequest method url body).reqBody = none ∧
      (buildExecRequest method url body).reqHeader = []) := by
  constructor
  · intro h
    simp [buildExecRequest, h, recordSet, recordGet]
  · intro h
    simp [buildExecRequest, h]

/-- Witness for C4 at a non-JSON non-empty body and at the empty body. -/
theorem execute_content_type_witness :
    ((buildExecRequest "POST" "http://a" "plain text").reqBody = some "plain text" ∧
      recordGet (buildExecRequest "POST" "http://a" "plain text").reqHeader
        "Content-Type" = some "application/json") ∧
    ((buildExecRequest "GET" "http://a" "").reqBody = none ∧
      (buildExecRequest "GET" "http://a" "").reqHeader = []) :=
  ⟨(execute_content_type "POST" "http://a" "plain text").1 (by decide),
   (execute_content_type "GET" "http://a" "").2 rfl⟩

/-- C5: construction failure returns the error with duration exactly zero and
the transport never invoked; transport failure returns the error with the
elapsed time at the failure (a `Nat`, hence `≥ 0`); the transport call site
is reached at most once. -/
theorem execute_failure_modes (env : ExecEnv) (method url body : String) :
    (∀ e, env.newReq method url = some e →
      Execute env method url body = ⟨0, [], "", 0, e⟩ ∧
      transportCalls env method url = 0) ∧
    (∀ e, env.newReq method url = none →
      env.transport (buildExecRequest method url body) = Except.error e →
      Execute env method url body = ⟨0, [], "", env.elapsedFail, e⟩) ∧
    transportCalls env method url ≤ 1 := by
  refine ⟨?_, ?_, ?_⟩
  · intro e h
    simp [Execute, transportCalls, h]
  · intro e h ht
    simp [Execute, h, ht]
  · unfold transportCalls
    cases env.newReq method url <;> simp

/-- Witness for C5: both failure modes at concrete environments. -/
theorem execute_failure_modes_witness :
    (Execute envConstructFail "GET" "u" "" = ⟨0, [], "", 0, "bad method"⟩ ∧
      transportCalls envConstructFail "GET" "u" = 0) ∧
    Execute envTransportFail "GET" "u" "" = ⟨0, [], "", 7, "connection refused"⟩ :=
  ⟨(execute_failure_modes envConstructFail "GET" "u" "").1 "bad method" rfl,
   (execute_failure_modes envTransportFail "GET" "u" "").2.1 "connection refused"
     rfl rfl⟩

/-- C6: any received response — whatever its status code — yields a result
with `error` absent (the Go zero value `""`), the response status, one
flattened value per response header name, the fully buffered payload, and
the elapsed duration; received responses never populate `error`. -/
theorem execute_response_success (env : ExecEnv) (method url body : String)
    (resp : HttpResp) (hc : env.newReq method url = none)
    (ht : env.transport (buildExecRequest method url body) = Except.ok resp) :
    Execute env method url body =
      ⟨resp.statusCode, flattenHeader resp.header, resp.bodyRead,
       env.elapsedDone, ""⟩ ∧
    ∀ k vs, (k, vs) ∈ resp.header →
      (k, vs.headD "") ∈ flattenHeader resp.header := by
  constructor
  · simp [Execute, hc, ht]
  · intro k vs h
    exact List.mem_map_of_mem (fun kv => (kv.1, kv.2.headD "")) h

/-- Witness for C6 at a 503 response with a multi-valued and an empty header. -/
theorem execute_response_success_witness :
    Execute envOk "GET" "u" "" =
      ⟨503, flattenHeader [("X-A", ["a", "b"]), ("X-B", [])], "oops", 12, ""⟩ :=
  (execute_response_success envOk "GET" "u" ""
    ⟨503, [("X-A", ["a", "b"]), ("X-B", [])], "oops"⟩ rfl rfl).1

/-- C2: every returned block satisfies
`startLine ≤ methodLine ≤ endLine`, and the returned sequence is pairwise
non-overlapping (each block ends strictly before the next begins) and
strictly ascending in `startLine`. -/
theorem parse_blocks_ordered (content : List Char) :
    (∀ b ∈ parseHttpFile content,
      b.startLine ≤ b.methodLine ∧ b.methodLine ≤ b.endLine) ∧
    (parseHttpFile content).Pairwise
      (fun a b => a.endLine < b.startLine ∧ a.startLine < b.startLine) := by
  have hm := parseHttpFile_master content
  refine ⟨fun b hb => (hm.1 b hb).1, ?_⟩
  refine List.Pairwise.imp_of_mem ?_ hm.2
  intro a b ha hb hab
  have hwa : a.startLine ≤ a.methodLine ∧ a.methodLine ≤ a.endLine :=
    (hm.1 a ha).1
  exact ⟨hab, by omega⟩

/-- Witness for C2 on the two-block separator document. -/
theorem parse_blocks_ordered_witness :
    (⟨"GET".data, "http://a.b".data, [], [], 0, 1, 1⟩ : RequestBlock).startLine ≤
      (⟨"GET".data, "http://a.b".data, [], [], 0, 1, 1⟩ : RequestBlock).methodLine ∧
    (⟨"GET".data, "http://a.b".data, [], [], 0, 1, 1⟩ : RequestBlock).methodLine ≤
      (⟨"GET".data, "http://a.b".data, [], [], 0, 1, 1⟩ : RequestBlock).endLine :=
  (parse_blocks_ordered sepDoc).1
    ⟨"GET".data, "http://a.b".data, [], [], 0, 1, 1⟩ (by decide)

/-- C8: a returned block's body is a fixed point of end-trimming — if
non-empty it ends in a non-whitespace character, so it carries no trailing
blank lines — while internal blank lines are preserved, as on the concrete
document whose body region is `a`, blank, `b`, blank, blank. -/
theorem body_no_trailing_blank :
    (∀ content : List Char, ∀ b ∈ parseHttpFile content,
      trimEndL b.body = b.body ∧
      (b.body ≠ [] → isWs (b.body.getLastD ' ') = false)) ∧
    parseHttpFile blankDoc =
      [⟨"GET".data, "http://x.y".data, [], ("a\n\nb").data, 0, 4, 0⟩] := by
  constructor
  · intro content b hb
    rcases ((parseHttpFile_master content).1 b hb).2 with h | ⟨s, hs⟩
    · rw [h]
      exact ⟨rfl, fun hne => absurd rfl hne⟩
    · rw [hs]
      refine ⟨trimEndL_idem s, fun hne => ?_⟩
      rcases trimEndL_last s with h0 | h1
      · exact absurd h0 hne
      · exact h1
  · decide

/-- Witness for C8 on the blank-line document's single block. -/
theorem body_no_trailing_blank_witness :
    trimEndL ("a\n\nb").data = ("a\n\nb").data ∧
    isWs ((("a\n\nb").data).getLastD ' ') = false :=
  have h := body_no_trailing_blank.1 blankDoc
    ⟨"GET".data, "http://x.y".data, [], ("a\n\nb").data, 0, 4, 0⟩ (by decide)
  ⟨h.1, h.2 (by decide)⟩

/-- C9: `findRequestAtLine` returns `none` exactly when no block's inclusive
`[startLine, endLine]` range contains the queried line, and otherwise
returns the first block (in sequence order) whose range contains it; on the
two-separator document each block is addressable through its own `###`
separator line, and a line beyond all ranges yields `none`. -/
theorem find_block_at_line_spec (blocks : List RequestBlock) (line : Nat) :
    (findRequestAtLine blocks line = none ↔
      ∀ b ∈ blocks, ¬ (b.startLine ≤ line ∧ line ≤ b.endLine)) ∧
    (∀ b, findRequestAtLine blocks line = some b →
      (b.startLine ≤ line ∧ line ≤ b.endLine) ∧
      ∃ pre post, blocks = pre ++ b :: post ∧
        ∀ a ∈ pre, ¬ (a.startLine ≤ line ∧ line ≤ a.endLine)) ∧
    (findRequestAtLine (parseHttpFile sepDoc) 0 =
        some ⟨"GET".data, "http://a.b".data, [], [], 0, 1, 1⟩ ∧
      findRequestAtLine (parseHttpFile sepDoc) 2 =
        some ⟨"GET".data, "http://c.d".data, [], [], 2, 3, 3⟩ ∧
      findRequestAtLine (parseHttpFile sepDoc) 99 = none) := by
  refine ⟨findRequestAtLine_none_iff blocks line, ?_,
    by decide, by decide, by decide⟩
  intro b h
  rcases find?_first _ blocks b h with ⟨hp, pre, post, heq, hpre⟩
  simp only [Bool.and_eq_true, decide_eq_true_eq] at hp
  refine ⟨hp, pre, post, heq, ?_⟩
  intro a ha hc
  have hfa := hpre a ha
  rw [show (decide (a.startLine ≤ line) && decide (line ≤ a.endLine)) = true
    from by simp [hc.1, hc.2]] at hfa
  cases hfa

theorem splitLines_no_nl {v : List Char} (h : '\n' ∉ v) : splitLines v = [v] := by
  induction v with
  | nil => rfl
  | cons c cs ih =>
    have hc : ¬ c = '\n' := fun e => h (by rw [e]; exact List.mem_cons_self _ _)
    have hcs : '\n' ∉ cs := fun m => h (List.mem_cons_of_mem c m)
    rw [splitLines, if_neg hc, ih hcs]

theorem splitLines_append_nl {a : List Char} (h : '\n' ∉ a) (r : List Char) :
    splitLines (a ++ '\n' :: r) = a :: splitLines r := by
  induction a with
  | nil => rw [List.nil_append, splitLines, if_pos rfl]
  | cons c cs ih =>
    have hc : ¬ c = '\n' := fun e => h (by rw [e]; exact List.mem_cons_self _ _)
    have hcs : '\n' ∉ cs := fun m => h (List.mem_cons_of_mem c m)
    rw [List.cons_append, splitLines, if_neg hc, ih hcs]

/-- One header-scan step over a line `A: v`: the key `A` and the trimmed
value are recorded. -/
theorem headerScanGo_step_A (lines : List (List Char)) (i : Nat)
    (rest : List Nat) (acc : List (List Char × List Char)) (v : List Char)
    (hg : lines.getD i [] = 'A' :: ':' :: ' ' :: v) :
    headerScanGo lines (i :: rest) acc =
      headerScanGo lines rest (recordSet acc ['A'] (trim v)) := by
  have hne : trim ('A' :: ':' :: ' ' :: v) ≠ [] :=
    trim_ne_nil_of_head_not_ws (by decide) _
  have hci : indexOfChar ('A' :: ':' :: ' ' :: v) ':' = 1 := by
    rw [indexOfChar, if_neg (by decide), indexOfChar, if_pos rfl]
    norm_num
  have htk : trim (List.take (1 : Int).toNat ('A' :: ':' :: ' ' :: v)) = ['A'] := by
    rw [show List.take (1 : Int).toNat ('A' :: ':' :: ' ' :: v) = ['A'] from rfl]
    decide
  have hdr : trim (List.drop ((1 : Int).toNat + 1) ('A' :: ':' :: ' ' :: v)) = trim v :=
    trim_cons_of_ws (by decide) v
  rw [headerScanGo, hg, if_neg hne]
  simp only [hci]
  rw [if_pos (by norm_num : (0 : Int) < 1), htk, hdr]

/-- Witness for C9: the second block is found from its separator line. -/
theorem find_block_at_line_spec_witness :
    ((⟨"GET".data, "http://c.d".data, [], [], 2, 3, 3⟩ : RequestBlock).startLine ≤ 2 ∧
      2 ≤ (⟨"GET".data, "http://c.d".data, [], [], 2, 3, 3⟩ : RequestBlock).endLine) ∧
    ∃ pre post, parseHttpFile sepDoc =
        pre ++ (⟨"GET".data, "http://c.d".data, [], [], 2, 3, 3⟩ : RequestBlock) :: post ∧
      ∀ a ∈ pre, ¬ (a.startLine ≤ 2 ∧ 2 ≤ a.endLine) :=
  (find_block_at_line_spec (parseHttpFile sepDoc) 2).2.1
    ⟨"GET".data, "http://c.d".data, [], [], 2, 3, 3⟩ (by decide)

/-- C7: in a header region, `key: value` lines with a positive colon index
are captured with key and value trimmed independently, and a later duplicate
key overwrites the earlier value: for any newline-free values `v1`, `v2`,
the document `GET http://x.y` / `A: v1` / `A: v2` parses to a single block
whose headers map `A` to the trimmed `v2`; concretely, `A: 1` then `A: 2`
yields `headers["A"] = "2"`, and a ` X : y` line is captured as `X ↦ y`. -/
theorem header_duplicate_overwrite (v1 v2 : List Char)
    (h1 : '\n' ∉ v1) (h2 : '\n' ∉ v2) :
    (∃ b, parseHttpFile ("GET http://x.y".data ++
        '\n' :: (('A' :: ':' :: ' ' :: v1) ++ '\n' :: ('A' :: ':' :: ' ' :: v2))) = [b] ∧
      b.headers = [(['A'], trim v2)] ∧
      recordGet b.headers ['A'] = some (trim v2)) ∧
    (parseHttpFile ("GET http://x.y\nA: 1\nA: 2").data).map (fun b => b.headers) =
      [[(['A'], ['2'])]] ∧
    (parseHttpFile ("GET http://x.y\n X : y").data).map (fun b => b.headers) =
      [[(['X'], ['y'])]] := by
  refine ⟨?_, by decide, by decide⟩
  have hnl1 : '\n' ∉ ('A' :: ':' :: ' ' :: v1) := by
    intro hm
    simp only [List.mem_cons] at hm
    rcases hm with h | h | h | h
    · exact absurd h (by decide)
    · exact absurd h (by decide)
    · exact absurd h (by decide)
    · exact h1 h
  have hnl2 : '\n' ∉ ('A' :: ':' :: ' ' :: v2) := by
    intro hm
    simp only [List.mem_cons] at hm
    rcases hm with h | h | h | h
    · exact absurd h (by decide)
    · exact absurd h (by decide)
    · exact absurd h (by decide)
    · exact h2 h
  have hlines : splitLines ("GET http://x.y".data ++
      '\n' :: (('A' :: ':' :: ' ' :: v1) ++ '\n' :: ('A' :: ':' :: ' ' :: v2))) =
      ["GET http://x.y".data, 'A' :: ':' :: ' ' :: v1, 'A' :: ':' :: ' ' :: v2] := by
    rw [splitLines_append_nl (by decide), splitLines_append_nl hnl1,
        splitLines_no_nl hnl2]
  have htr1 : trim ('A' :: ':' :: ' ' :: v1) = 'A' :: trimEndL (':' :: ' ' :: v1) :=
    trim_cons_of_not_ws (by decide) _
  have htr2 : trim ('A' :: ':' :: ' ' :: v2) = 'A' :: trimEndL (':' :: ' ' :: v2) :=
    trim_cons_of_not_ws (by decide) _
  have hstep0 : parseLineStep
      ["GET http://x.y".data, 'A' :: ':' :: ' ' :: v1, 'A' :: ':' :: ' ' :: v2]
      0 ("GET http://x.y".data) ⟨[], 0, none⟩ = ⟨[], 0, some 0⟩ :=
    parseLineStep_method_none _ _ _ _ (by decide) (by decide) rfl (by decide)
  have hstep1 : parseLineStep
      ["GET http://x.y".data, 'A' :: ':' :: ' ' :: v1, 'A' :: ':' :: ' ' :: v2]
      1 ('A' :: ':' :: ' ' :: v1) ⟨[], 0, some 0⟩ = ⟨[], 0, some 0⟩ :=
    parseLineStep_plain _ _ _ _
      (by rw [htr1]; exact beginsWith_cons_false (by decide) _ _)
      (by rw [htr1]
          exact looksLikeMethodLine_head_false _ (by decide) (by decide)
            (by decide) (by decide) (by decide) (by decide))
  have hstep2 : parseLineStep
      ["GET http://x.y".data, 'A' :: ':' :: ' ' :: v1, 'A' :: ':' :: ' ' :: v2]
      2 ('A' :: ':' :: ' ' :: v2) ⟨[], 0, some 0⟩ = ⟨[], 0, some 0⟩ :=
    parseLineStep_plain _ _ _ _
      (by rw [htr2]; exact beginsWith_cons_false (by decide) _ _)
      (by rw [htr2]
          exact looksLikeMethodLine_head_false _ (by decide) (by decide)
            (by decide) (by decide) (by decide) (by decide))
  have hscan : headerScanGo
      ["GET http://x.y".data, 'A' :: ':' :: ' ' :: v1, 'A' :: ':' :: ' ' :: v2]
      [1, 2] [] = ([(['A'], trim v2)], none) := by
    rw [headerScanGo_step_A
          ["GET http://x.y".data, 'A' :: ':' :: ' ' :: v1, 'A' :: ':' :: ' ' :: v2]
          1 [2] [] v1 rfl,
        headerScanGo_step_A
          ["GET http://x.y".data, 'A' :: ':' :: ' ' :: v1, 'A' :: ':' :: ' ' :: v2]
          2 [] _ v2 rfl,
        headerScanGo]
    rw [show recordSet (recordSet ([] : List (List Char × List Char)) ['A'] (trim v1))
      ['A'] (trim v2) = [(['A'], trim v2)] from rfl]
  have htb : trimBlankEnd
      ["GET http://x.y".data, 'A' :: ':' :: ' ' :: v1, 'A' :: ':' :: ' ' :: v2]
      0 2 = 2 := by
    rw [show (2 : Nat) = 1 + 1 from rfl, trimBlankEnd, if_neg]
    rintro ⟨_, hx⟩
    rw [show (["GET http://x.y".data, 'A' :: ':' :: ' ' :: v1,
      'A' :: ':' :: ' ' :: v2].getD (1 + 1) []) = 'A' :: ':' :: ' ' :: v2 from rfl] at hx
    exact trim_ne_nil_of_head_not_ws (by decide) _ hx
  have hbb : buildBlock
      ["GET http://x.y".data, 'A' :: ':' :: ' ' :: v1, 'A' :: ':' :: ' ' :: v2]
      0 2 0 =
      some ⟨"GET".data, "http://x.y".data, [(['A'], trim v2)], [], 0, 2, 0⟩ := by
    unfold buildBlock
    rw [show (["GET http://x.y".data, 'A' :: ':' :: ' ' :: v1,
        'A' :: ':' :: ' ' :: v2].getD 0 []) = "GET http://x.y".data from rfl]
    rw [show trim ("GET http://x.y".data) = "GET http://x.y".data from by decide]
    rw [show parseMethodUrl ("GET http://x.y".data) =
        some ("GET".data, "http://x.y".data) from by decide]
    rw [show List.range' (0 + 1) (2 - 0) = [1, 2] from rfl, hscan]
  have hfl : flushSt
      ["GET http://x.y".data, 'A' :: ':' :: ' ' :: v1, 'A' :: ':' :: ' ' :: v2]
      ⟨[], 0, some 0⟩ 2 =
      ⟨[⟨"GET".data, "http://x.y".data, [(['A'], trim v2)], [], 0, 2, 0⟩], 0, none⟩ := by
    unfold flushSt
    dsimp only
    simp only [htb, hbb]
    rfl
  refine ⟨⟨"GET".data, "http://x.y".data, [(['A'], trim v2)], [], 0, 2, 0⟩,
    ?_, rfl, rfl⟩
  simp only [parseHttpFile, hlines]
  rw [show withIdx 0 ["GET http://x.y".data, 'A' :: ':' :: ' ' :: v1,
      'A' :: ':' :: ' ' :: v2] =
    [(0, "GET http://x.y".data), (1, 'A' :: ':' :: ' ' :: v1),
     (2, 'A' :: ':' :: ' ' :: v2)] from rfl]
  rw [parseLinesGo, hstep0, parseLinesGo, hstep1, parseLinesGo, hstep2, parseLinesGo]
  rw [show (["GET http://x.y".data, 'A' :: ':' :: ' ' :: v1,
      'A' :: ':' :: ' ' :: v2].length - 1 : Nat) = 2 from rfl]
  rw [hfl]

/-- Witness for C7 at the values `1` and `2`. -/
theorem header_duplicate_overwrite_witness :
    ∃ b, parseHttpFile ("GET http://x.y".data ++
        '\n' :: (('A' :: ':' :: ' ' :: ['1']) ++ '\n' :: ('A' :: ':' :: ' ' :: ['2']))) = [b] ∧
      b.headers = [(['A'], trim ['2'])] ∧
      recordGet b.headers ['A'] = some (trim ['2']) :=
  (header_duplicate_overwrite ['1'] ['2'] (by decide) (by decide)).1

end Dispatch
